import Mathlib

/-!
# Verification of the pyfftrim batch media-trimming utility

A shallow embedding of `pyfftrim.py`.  The filesystem and the two external
collaborators (the `ffprobe` duration probe and the `ffmpeg` trim call) are
modelled as abstract environments; the worklist builder
(`pyfftrim.__init__` / `add_dir` / `_in_whitelist`) and the trim
orchestrator (`pyfftrim.trim` / `_trim_file` / `_format_secs`) are embedded
as executable Lean functions.  The trim orchestrator additionally emits a
trace of its externally observable effects (probe invocations, trim
invocations, file deletions) so that claims about side effects can be
stated precisely.
-/

set_option autoImplicit false

namespace PyFFTrim

/-! ## Path utilities: `os.path.splitext` and `os.path.join` (posix) -/

/-- Index of the last occurrence of a character in a list, if any.
Mirrors Python's `str.rfind` restricted to a single character. -/
def lastIdx (c : Char) : List Char → Option Nat
  | [] => none
  | x :: xs =>
    match lastIdx c xs with
    | some i => some (i + 1)
    | none => if x = c then some 0 else none

/-- Python's `str.rfind` convention: `-1` when the character is absent. -/
def idxOrNeg : Option Nat → Int
  | none => -1
  | some i => (i : Int)

/-- `os.path.splitext` for posix paths: split at the last dot of the final
path component, unless every character of the component before that dot is
itself a dot (so `".bashrc"` has no extension). -/
def splitext (p : String) : String × String :=
  let cs := p.data
  let sepIndex := idxOrNeg (lastIdx '/' cs)
  let dotIndex := idxOrNeg (lastIdx '.' cs)
  if sepIndex < dotIndex then
    if ((cs.drop (sepIndex + 1).toNat).take (dotIndex - sepIndex - 1).toNat).all (· = '.') then
      (p, "")
    else
      (String.mk (cs.take dotIndex.toNat), String.mk (cs.drop dotIndex.toNat))
  else
    (p, "")

/-- Python's `b.startswith('/')`. -/
def startsWithSep (s : String) : Bool := s.data.head? = some '/'

/-- Python's `path.endswith('/')`. -/
def endsWithSep (s : String) : Bool := s.data.getLast? = some '/'

/-- `os.path.join` for posix paths, two arguments. -/
def joinPath (path b : String) : String :=
  if startsWithSep b then b
  else if path = "" then b
  else if endsWithSep path then path ++ b
  else path ++ "/" ++ b

/-- Number of path separators in a string; a proxy for the depth of a path
below the filesystem root. -/
def slashCount (s : String) : Nat := s.data.count '/'

/-! ## The abstract filesystem -/

/-- The queries the worklist builder makes of the filesystem:
`os.path.isfile`, `os.path.isdir` and `os.listdir`. -/
structure FS where
  isFile : String → Bool
  isDir : String → Bool
  listdir : String → List String

/-! ## The worklist builder: `_in_whitelist`, `add_dir`, `add_file`, `__init__` -/

/-- The loop of `pyfftrim._in_whitelist`: scan the whitelist for an entry
equal to the extension. -/
def inWlLoop (extension : String) : List String → Bool
  | [] => false
  | w :: ws => if extension = w then true else inWlLoop extension ws

/-- `pyfftrim._in_whitelist`: the extension produced by `os.path.splitext`
must equal some whitelist entry exactly. -/
def in_whitelist (whitelist : List String) (path : String) : Bool :=
  inWlLoop (splitext path).2 whitelist

/-- Recursion core of `pyfftrim.add_dir`.  The `Nat` argument is
`depth.toNat`: the guard `depth < 1` of the source is exactly the `0` case,
and the source recurses only when `depth > 1`, i.e. when the predecessor is
still positive.  Returns the `(return value, appended paths)` pair. -/
def add_dir_go (fs : FS) (wl : List String) : String → Nat → Bool × List String
  | _, 0 => (false, [])
  | path, n + 1 =>
    if fs.isDir path then
      (true, (fs.listdir path).flatMap fun entry =>
        let entry_path := joinPath path entry
        if fs.isFile entry_path then
          if in_whitelist wl entry then [entry_path] else []
        else
          if 0 < n then (add_dir_go fs wl entry_path n).2 else [])
    else (false, [])

/-- `pyfftrim.add_dir`: recursively collect the files of a directory up to
the given depth budget.  Returns the boolean result of the method together
with the list of paths it appends to `self.files`. -/
def add_dir (fs : FS) (wl : List String) (path : String) (depth : Int) : Bool × List String :=
  add_dir_go fs wl path depth.toNat

/-- The body of the `for entry in os.listdir(path)` loop of
`pyfftrim.add_dir`, as a function from the child name to the paths this
child contributes to the worklist. -/
def add_dir_entry (fs : FS) (wl : List String) (path : String) (depth : Int)
    (entry : String) : List String :=
  let entry_path := joinPath path entry
  if fs.isFile entry_path then
    if in_whitelist wl entry then [entry_path] else []
  else
    if 1 < depth then (add_dir fs wl entry_path (depth - 1)).2 else []

/-- `pyfftrim.add_file`: append a single path unconditionally if it is a
regular file. -/
def add_file (fs : FS) (files : List String) (name : String) : Bool × List String :=
  if fs.isFile name then (true, files ++ [name]) else (false, files)

/-- Module-level `default_whitelist` of `pyfftrim.py`. -/
def default_whitelist : List String := [".ts", ".mpg"]

/-- Module-level default for the output-name insertion string
(`default_postfix` in the source; renamed because the original identifier
is a keyword in Lean). -/
def default_pfx : String := "_trimmed"

/-- Errors `pyfftrim.__init__` can raise. -/
inductive InitError where
  | runtimeError
  | fileNotFound
deriving DecidableEq, Repr

/-- The state a fully constructed `pyfftrim` object carries: the worklist,
the output-name insertion string and the extension whitelist. -/
structure TrimState where
  files : List String
  pfx : String
  whitelist : List String
deriving DecidableEq, Repr

/-- `pyfftrim.__init__`: validate `depth` and the insertion string, then
build the worklist from a file or directory.  `name = none` models the
source's early return, which constructs an object with no worklist. -/
def pyfftrim_init (fs : FS) (name : Option String) (depth : Int) (pfx : String)
    (whitelist : Option (List String)) : Except InitError (Option TrimState) :=
  match name with
  | none => .ok none
  | some nm =>
    if depth < 1 then .error .runtimeError
    else if pfx = "" then .error .runtimeError
    else
      let wl := whitelist.getD default_whitelist
      if fs.isFile nm then .ok (some ⟨[nm], pfx, wl⟩)
      else if fs.isDir nm then .ok (some ⟨(add_dir fs wl nm depth).2, pfx, wl⟩)
      else .error .fileNotFound

/-! ## The trim orchestrator: `_format_secs`, `_trim_file`, `trim` -/

/-- Python's `'{:02d}'` formatting: pad a single-digit non-negative value
with a leading zero, otherwise print the integer as is. -/
def pad2 (n : Int) : String :=
  if 0 ≤ n ∧ n < 10 then "0" ++ toString n else toString n

/-- `pyfftrim._format_secs`: render a number of seconds as `HH:MM:SS`
using Python's floor-division `divmod`. -/
def format_secs (secs : Int) : String :=
  let m := secs.fdiv 60
  let s := secs.fmod 60
  let h := m.fdiv 60
  let m2 := m.fmod 60
  pad2 h ++ ":" ++ pad2 m2 ++ ":" ++ pad2 s

/-- The output-path derivation of `pyfftrim._trim_file`: insert the
configured string between the stem and the extension of the input path. -/
def out_path (pfx in_path : String) : String :=
  let ne := splitext in_path
  ne.1 ++ pfx ++ ne.2

/-- The external collaborators of the trim loop: `duration path` is the
probed whole-second duration (`none` when the path is not a regular file,
in which case `_get_duration` raises `FileNotFoundError`), and
`trimStatus in_path start end` is the status code the external `ffmpeg`
invocation reports. -/
structure Env where
  duration : String → Option Int
  trimStatus : String → String → String → Int

/-- The externally observable effects of a run: an `ffprobe` duration
query, an `ffmpeg` trim invocation (with its derived output path), and a
deletion of an original file. -/
inductive Effect where
  | probe (path : String)
  | trim (inPath startT endT outPath : String)
  | remove (path : String)
deriving DecidableEq, Repr

/-- The input path an effect touches. -/
def Effect.path : Effect → String
  | .probe p => p
  | .trim p _ _ _ => p
  | .remove p => p

/-- How a run of `pyfftrim.trim` ends: either the `FileNotFoundError` of
`_get_duration` propagates, or the method returns a boolean. -/
inductive Outcome where
  | raisedNotFound
  | returned (b : Bool)
deriving DecidableEq, Repr

/-- The `for entry in self.files` loop of `pyfftrim.trim`, carrying the
`error_flag` accumulator and emitting the trace of external effects.
`startT` is the `start_time` computed once before the loop. -/
def trimGo (env : Env) (pfx : String) (s e : Int) (dr del : Bool) (startT : String) :
    List String → Bool → Outcome × List Effect
  | [], error_flag => (.returned (!error_flag), [])
  | entry :: rest, error_flag =>
    match env.duration entry with
    | none => (.raisedNotFound, [])
    | some duration =>
      let new_duration := duration - s - e
      if new_duration ≤ 0 then (.returned false, [.probe entry])
      else
        let end_time := format_secs new_duration
        if dr then
          let r := trimGo env pfx s e dr del startT rest error_flag
          (r.1, .probe entry :: r.2)
        else
          let status := env.trimStatus entry startT end_time
          let tr := Effect.trim entry startT end_time (out_path pfx entry)
          if status ≠ 0 then
            let r := trimGo env pfx s e dr del startT rest true
            (r.1, .probe entry :: tr :: r.2)
          else if del then
            let r := trimGo env pfx s e dr del startT rest error_flag
            (r.1, .probe entry :: tr :: .remove entry :: r.2)
          else
            let r := trimGo env pfx s e dr del startT rest error_flag
            (r.1, .probe entry :: tr :: r.2)

/-- `pyfftrim.trim`: convert `start` once, then process every worklist
entry in order; return the overall boolean (negated `error_flag`) and the
trace of external effects. -/
def trim (env : Env) (pfx : String) (s e : Int) (dr del : Bool)
    (files : List String) : Outcome × List Effect :=
  trimGo env pfx s e dr del (format_secs s) files false

/-! ## Derived per-entry descriptions used by the run-level theorems -/

/-- An entry the loop gets past: the probe succeeds and the remaining
duration is positive, so neither the `FileNotFoundError` nor the global
abort fires at it. -/
def okEntry (env : Env) (s e : Int) (p : String) : Prop :=
  ∃ d, env.duration p = some d ∧ 0 < d - s - e

/-- The `end_time` the loop computes for an entry (meaningful for entries
whose probe succeeds). -/
def entryEndTime (env : Env) (s e : Int) (p : String) : String :=
  format_secs ((env.duration p).getD 0 - s - e)

/-- Whether processing an entry sets `error_flag`: a real (non-dry-run)
invocation whose reported status is non-zero. -/
def entryFail (env : Env) (s e : Int) (dr : Bool) (startT : String) (p : String) : Bool :=
  !dr && decide (env.trimStatus p startT (entryEndTime env s e p) ≠ 0)

/-- The effect trace one `okEntry` contributes to the run. -/
def entryEffs (env : Env) (pfx : String) (s e : Int) (dr del : Bool) (startT : String)
    (p : String) : List Effect :=
  if dr then [.probe p]
  else
    let et := entryEndTime env s e p
    let tr := Effect.trim p startT et (out_path pfx p)
    if env.trimStatus p startT et ≠ 0 then [.probe p, tr]
    else if del then [.probe p, tr, .remove p]
    else [.probe p, tr]

/-! ## Lemmas about the whitelist check and path splitting -/

theorem inWlLoop_eq_true_iff (ext : String) (wl : List String) :
    inWlLoop ext wl = true ↔ ext ∈ wl := by
  induction wl with
  | nil => simp [inWlLoop]
  | cons w ws ih => by_cases h : ext = w <;> simp [inWlLoop, h, ih]

theorem in_whitelist_iff (wl : List String) (p : String) :
    in_whitelist wl p = true ↔ (splitext p).2 ∈ wl :=
  inWlLoop_eq_true_iff _ _

theorem splitext_append (p : String) : (splitext p).1 ++ (splitext p).2 = p := by
  simp only [splitext]
  split
  · split
    · apply String.ext
      simp [String.data_append]
    · apply String.ext
      simp [String.data_append]
  · apply String.ext
    simp [String.data_append]

/-! ## Lemmas about path depth -/

theorem slashCount_append (a b : String) :
    slashCount (a ++ b) = slashCount a + slashCount b := by
  simp [slashCount, String.data_append, List.count_append]

theorem slashCount_eq_zero (b : String) (h : '/' ∉ b.data) : slashCount b = 0 := by
  simpa [slashCount, List.count_eq_zero] using h

theorem slashCount_joinPath (path b : String) (h1 : '/' ∉ b.data)
    (h2 : startsWithSep b = false) :
    slashCount (joinPath path b) ≤ slashCount path + 1 := by
  unfold joinPath
  rw [h2]
  simp only [Bool.false_eq_true, if_false]
  by_cases hp : path = ""
  · rw [if_pos hp]
    simp [slashCount_eq_zero b h1, hp]
  · rw [if_neg hp]
    by_cases he : endsWithSep path
    · rw [if_pos he, slashCount_append, slashCount_eq_zero b h1]
      omega
    · rw [if_neg he, slashCount_append, slashCount_append, slashCount_eq_zero b h1]
      have : slashCount "/" = 1 := by decide
      omega

/-! ## The directory walk: unfolding and the depth bound -/

theorem add_dir_eq_flatMap (fs : FS) (wl : List String) (path : String) (depth : Int)
    (hd : ¬depth < 1) (hdir : fs.isDir path = true) :
    add_dir fs wl path depth =
      (true, (fs.listdir path).flatMap (add_dir_entry fs wl path depth)) := by
  obtain ⟨n, hn⟩ : ∃ n, depth.toNat = n + 1 := ⟨depth.toNat - 1, by omega⟩
  have hbody : ∀ entry : String,
      (let entry_path := joinPath path entry
       if fs.isFile entry_path then
         if in_whitelist wl entry then [entry_path] else []
       else
         if 0 < n then (add_dir_go fs wl entry_path n).2 else []) =
      add_dir_entry fs wl path depth entry := by
    intro entry
    simp only [add_dir_entry, add_dir]
    have h2 : (depth - 1).toNat = n := by omega
    by_cases hf : fs.isFile (joinPath path entry) = true
    · simp [hf]
    · simp only [hf, Bool.false_eq_true, if_false]
      rw [h2]
      exact if_congr (by omega) rfl rfl
  unfold add_dir
  rw [hn]
  unfold add_dir_go
  rw [if_pos hdir]
  exact congrArg (Prod.mk true) (List.flatMap_congr fun entry _ => hbody entry)

theorem add_dir_go_depth_bound (fs : FS) (wl : List String)
    (hclean : ∀ p n, n ∈ fs.listdir p → '/' ∉ n.data ∧ startsWithSep n = false) :
    ∀ (n : Nat) (root q : String), q ∈ (add_dir_go fs wl root n).2 →
      slashCount q ≤ slashCount root + n := by
  intro n
  induction n with
  | zero => intro root q hq; simp [add_dir_go] at hq
  | succ m ih =>
    intro root q hq
    unfold add_dir_go at hq
    split at hq
    · simp only [List.mem_flatMap] at hq
      obtain ⟨entry, hentry, hq⟩ := hq
      obtain ⟨hnd, hns⟩ := hclean root entry hentry
      have hj := slashCount_joinPath root entry hnd hns
      split at hq
      · split at hq
        · simp only [List.mem_singleton] at hq
          subst hq
          omega
        · simp at hq
      · split at hq
        · have := ih (joinPath root entry) q hq
          omega
        · simp at hq
    · simp at hq

/-! ## A concrete filesystem used by the witnesses -/

/-- A small concrete filesystem: a root directory `r` holding a
whitelisted file `a.ts`, a non-whitelisted file `b.mp4` and a subdirectory
`s` with one more whitelisted file `c.ts`; plus a free-standing file
`single.avi` whose extension is not whitelisted. -/
def fsW : FS where
  isFile := fun p => p = "r/a.ts" || p = "r/b.mp4" || p = "r/s/c.ts" || p = "single.avi"
  isDir := fun p => p = "r" || p = "r/s"
  listdir := fun p =>
    if p = "r" then ["a.ts", "b.mp4", "s"]
    else if p = "r/s" then ["c.ts"]
    else []

theorem fsW_clean :
    ∀ p n, n ∈ fsW.listdir p → '/' ∉ n.data ∧ startsWithSep n = false := by
  intro p n hn
  simp only [fsW] at hn
  split at hn
  · simp only [List.mem_cons, List.not_mem_nil, or_false] at hn
    rcases hn with rfl | rfl | rfl <;> exact ⟨by decide, by decide⟩
  · split at hn
    · simp only [List.mem_singleton] at hn
      subst hn
      exact ⟨by decide, by decide⟩
    · simp at hn

/-! ## Claim theorems: the worklist builder -/

/-- Claim C3: building the worklist from a path that is a regular file
yields exactly the single-element list containing that path, for every
whitelist, so the extension whitelist is not applied to it. -/
theorem init_single_file_worklist (fs : FS) (nm : String) (depth : Int) (pfx : String)
    (wl : Option (List String)) (hf : fs.isFile nm = true) (hd : 1 ≤ depth)
    (hp : pfx ≠ "") :
    pyfftrim_init fs (some nm) depth pfx wl =
      .ok (some ⟨[nm], pfx, wl.getD default_whitelist⟩) := by
  simp only [pyfftrim_init]
  rw [if_neg (by omega : ¬depth < 1), if_neg hp]
  simp only [hf, if_true]

theorem init_single_file_worklist_witness :
    pyfftrim_init fsW (some "single.avi") 3 "_trimmed" (some [".ts"]) =
      .ok (some ⟨["single.avi"], "_trimmed", [".ts"]⟩) :=
  init_single_file_worklist fsW "single.avi" 3 "_trimmed" (some [".ts"])
    (by decide) (by decide) (by decide)

/-- Claim C6: constructing the session with an empty output-name insertion
string, or with a depth below 1, fails fast with the runtime error and
builds no worklist. -/
theorem init_invalid_config_raises (fs : FS) (nm : String) (depth : Int) (pfx : String)
    (wl : Option (List String)) (h : pfx = "" ∨ depth < 1) :
    pyfftrim_init fs (some nm) depth pfx wl = .error .runtimeError := by
  simp only [pyfftrim_init]
  by_cases hd : depth < 1
  · rw [if_pos hd]
  · rcases h with h | h
    · rw [if_neg hd, if_pos h]
    · exact absurd h hd

theorem init_invalid_config_raises_witness :
    pyfftrim_init fsW (some "r") 4 "" none = .error .runtimeError ∧
    pyfftrim_init fsW (some "r") 0 "_trimmed" none = .error .runtimeError :=
  ⟨init_invalid_config_raises fsW "r" 4 "" none (Or.inl rfl),
   init_invalid_config_raises fsW "r" 0 "_trimmed" none (Or.inr (by decide))⟩

/-- Claim C4: the directory walk with depth budget `d` never adds a file
lying more than `d` directory-levels below the root (measured by path
separators, assuming directory listings return plain child names), so any
path more than `d` levels below the root is absent from the worklist. -/
theorem add_dir_respects_depth_budget (fs : FS) (wl : List String) (d : Int) (root : String)
    (hclean : ∀ p n, n ∈ fs.listdir p → '/' ∉ n.data ∧ startsWithSep n = false) :
    (∀ q ∈ (add_dir fs wl root d).2, slashCount q ≤ slashCount root + d.toNat) ∧
    (∀ q, slashCount root + d.toNat < slashCount q → q ∉ (add_dir fs wl root d).2) := by
  constructor
  · intro q hq
    exact add_dir_go_depth_bound fs wl hclean d.toNat root q hq
  · intro q hlt hq
    exact absurd (add_dir_go_depth_bound fs wl hclean d.toNat root q hq) (by omega)

theorem add_dir_respects_depth_budget_witness :
    "r/s/c.ts" ∉ (add_dir fsW default_whitelist "r" 1).2 :=
  (add_dir_respects_depth_budget fsW default_whitelist 1 "r" fsW_clean).2
    "r/s/c.ts" (by decide)

/-- Claim C5: during directory traversal a child regular file contributes
its path to the worklist exactly when the extension produced by the
extension-splitting rule is, case-sensitively, equal to some whitelist
entry; a whitelisted child is indeed in the built worklist, and a
non-whitelisted child is merely skipped: the traversal still completes
normally (returns true). -/
theorem add_dir_whitelist_filter (fs : FS) (wl : List String) (path entry : String)
    (depth : Int) (hd : 1 ≤ depth) (hdir : fs.isDir path = true)
    (hmem : entry ∈ fs.listdir path)
    (hfile : fs.isFile (joinPath path entry) = true) :
    add_dir_entry fs wl path depth entry =
      (if (splitext entry).2 ∈ wl then [joinPath path entry] else []) ∧
    ((splitext entry).2 ∈ wl → joinPath path entry ∈ (add_dir fs wl path depth).2) ∧
    (add_dir fs wl path depth).1 = true := by
  have heq := add_dir_eq_flatMap fs wl path depth (by omega) hdir
  have hentry : add_dir_entry fs wl path depth entry =
      (if (splitext entry).2 ∈ wl then [joinPath path entry] else []) := by
    simp only [add_dir_entry, hfile, if_true]
    by_cases hw : (splitext entry).2 ∈ wl
    · rw [if_pos ((in_whitelist_iff wl entry).mpr hw), if_pos hw]
    · rw [if_neg (fun hc => hw ((in_whitelist_iff wl entry).mp hc)), if_neg hw]
  refine ⟨hentry, fun hw => ?_, by rw [heq]⟩
  rw [heq]
  simp only [List.mem_flatMap]
  exact ⟨entry, hmem, by rw [hentry, if_pos hw]; simp⟩

theorem add_dir_whitelist_filter_witness :
    (add_dir_entry fsW default_whitelist "r" 1 "a.ts" =
      (if (splitext "a.ts").2 ∈ default_whitelist then [joinPath "r" "a.ts"] else []) ∧
    ((splitext "a.ts").2 ∈ default_whitelist →
      joinPath "r" "a.ts" ∈ (add_dir fsW default_whitelist "r" 1).2) ∧
    (add_dir fsW default_whitelist "r" 1).1 = true) ∧
    add_dir_entry fsW default_whitelist "r" 1 "b.mp4" =
      (if (splitext "b.mp4").2 ∈ default_whitelist then [joinPath "r" "b.mp4"] else []) :=
  ⟨add_dir_whitelist_filter fsW default_whitelist "r" "a.ts" 1 (by decide) (by decide)
      (by decide) (by decide),
   (add_dir_whitelist_filter fsW default_whitelist "r" "b.mp4" 1 (by decide) (by decide)
      (by decide) (by decide)).1⟩

/-- Claim C9: the output path is formed by inserting the configured
insertion string between the input path's stem and its extension (which
together recompose the input path); in particular `movie.mpg` with
`_trimmed` yields `movie_trimmed.mpg` and extensionless `movie` yields
`movie_trimmed`. -/
theorem out_path_inserts_pfx (p pfx : String) (h : pfx ≠ "") :
    out_path pfx p = (splitext p).1 ++ pfx ++ (splitext p).2 ∧
    (splitext p).1 ++ (splitext p).2 = p ∧
    out_path "_trimmed" "movie.mpg" = "movie_trimmed.mpg" ∧
    out_path "_trimmed" "movie" = "movie_trimmed" :=
  ⟨rfl, splitext_append p, by decide, by decide⟩

theorem out_path_inserts_pfx_witness :
    out_path "_trimmed" "clip.ts" = (splitext "clip.ts").1 ++ "_trimmed" ++ (splitext "clip.ts").2 ∧
    (splitext "clip.ts").1 ++ (splitext "clip.ts").2 = "clip.ts" ∧
    out_path "_trimmed" "movie.mpg" = "movie_trimmed.mpg" ∧
    out_path "_trimmed" "movie" = "movie_trimmed" :=
  out_path_inserts_pfx "clip.ts" "_trimmed" (by decide)

/-! ## Lemmas about the trim loop -/

theorem entryFail_dryrun (env : Env) (s e : Int) (startT p : String) :
    entryFail env s e true startT p = false := rfl

theorem entryEffs_dryrun (env : Env) (pfx : String) (s e : Int) (del : Bool)
    (startT p : String) : entryEffs env pfx s e true del startT p = [.probe p] := rfl

theorem entryEffs_path (env : Env) (pfx : String) (s e : Int) (dr del : Bool)
    (startT p : String) (eff : Effect) (h : eff ∈ entryEffs env pfx s e dr del startT p) :
    eff.path = p := by
  unfold entryEffs at h
  cases dr with
  | true =>
    rw [if_pos rfl] at h
    simp only [List.mem_singleton] at h
    subst h; rfl
  | false =>
    rw [if_neg Bool.false_ne_true] at h
    simp only [] at h
    by_cases hst : env.trimStatus p startT (entryEndTime env s e p) ≠ 0
    · rw [if_pos hst] at h
      simp only [List.mem_cons, List.not_mem_nil, or_false] at h
      rcases h with rfl | rfl <;> rfl
    · rw [if_neg hst] at h
      cases del with
      | true =>
        rw [if_pos rfl] at h
        simp only [List.mem_cons, List.not_mem_nil, or_false] at h
        rcases h with rfl | rfl | rfl <;> rfl
      | false =>
        rw [if_neg Bool.false_ne_true] at h
        simp only [List.mem_cons, List.not_mem_nil, or_false] at h
        rcases h with rfl | rfl <;> rfl

/-- One loop iteration over an entry the loop gets past, expressed with the
per-entry failure flag and effect trace. -/
theorem trimGo_cons_ok (env : Env) (pfx : String) (s e : Int) (dr del : Bool)
    (startT p : String) (rest : List String) (flag : Bool)
    (d : Int) (hd : env.duration p = some d) (hpos : 0 < d - s - e) :
    trimGo env pfx s e dr del startT (p :: rest) flag =
      ((trimGo env pfx s e dr del startT rest (flag || entryFail env s e dr startT p)).1,
       entryEffs env pfx s e dr del startT p ++
         (trimGo env pfx s e dr del startT rest (flag || entryFail env s e dr startT p)).2) := by
  have het : entryEndTime env s e p = format_secs (d - s - e) := by
    simp [entryEndTime, hd]
  simp only [trimGo, hd]
  rw [if_neg (by omega : ¬d - s - e ≤ 0)]
  cases dr with
  | true =>
    simp [entryFail, entryEffs]
  | false =>
    by_cases hst : env.trimStatus p startT (format_secs (d - s - e)) ≠ 0
    · rw [if_pos hst]
      have hfail : entryFail env s e false startT p = true := by
        simp [entryFail, het, hst]
      simp [hfail, entryEffs, het, hst]
    · rw [if_neg hst]
      push_neg at hst
      have hfail : entryFail env s e false startT p = false := by
        simp [entryFail, het, hst]
      cases del with
      | true => simp [hfail, entryEffs, het, hst]
      | false => simp [hfail, entryEffs, het, hst]

/-- Compositionality of the loop: a prefix of entries the loop gets past
contributes its failure flags and effect traces, then the loop continues
on the remainder. -/
theorem trimGo_append (env : Env) (pfx : String) (s e : Int) (dr del : Bool)
    (startT : String) (pre rest : List String) (flag : Bool)
    (hpre : ∀ p ∈ pre, okEntry env s e p) :
    trimGo env pfx s e dr del startT (pre ++ rest) flag =
      ((trimGo env pfx s e dr del startT rest
          (flag || pre.any (entryFail env s e dr startT))).1,
       pre.flatMap (entryEffs env pfx s e dr del startT) ++
         (trimGo env pfx s e dr del startT rest
           (flag || pre.any (entryFail env s e dr startT))).2) := by
  induction pre generalizing flag with
  | nil => simp
  | cons p pre ih =>
    obtain ⟨d, hd, hpos⟩ := hpre p (by simp)
    have hpre' : ∀ q ∈ pre, okEntry env s e q := fun q hq => hpre q (by simp [hq])
    rw [List.cons_append, trimGo_cons_ok env pfx s e dr del startT p (pre ++ rest)
      flag d hd hpos, ih (flag || entryFail env s e dr startT p) hpre']
    simp [Bool.or_assoc]

theorem not_any_eq_all_not {α : Type} (l : List α) (f : α → Bool) :
    (!l.any f) = l.all fun a => !f a := by
  induction l with
  | nil => rfl
  | cons a l ih => simp [List.any_cons, List.all_cons, ih]

/-- The full run on a worklist of entries the loop gets past: the result
is the conjunction of the per-entry non-failures, and the trace is the
concatenation of the per-entry traces. -/
theorem trim_run_eq (env : Env) (pfx : String) (s e : Int) (dr del : Bool)
    (files : List String) (h : ∀ p ∈ files, okEntry env s e p) :
    trim env pfx s e dr del files =
      (.returned (files.all fun p => !entryFail env s e dr (format_secs s) p),
       files.flatMap (entryEffs env pfx s e dr del (format_secs s))) := by
  unfold trim
  have h1 := trimGo_append env pfx s e dr del (format_secs s) files [] false h
  simp only [List.append_nil] at h1
  rw [h1]
  simp [trimGo, not_any_eq_all_not]

theorem trimGo_dryrun_probes (env : Env) (pfx : String) (s e : Int) (del : Bool)
    (startT : String) :
    ∀ (files : List String) (flag : Bool) (eff : Effect),
      eff ∈ (trimGo env pfx s e true del startT files flag).2 → ∃ p, eff = .probe p := by
  intro files
  induction files with
  | nil => intro flag eff h; simp [trimGo] at h
  | cons p rest ih =>
    intro flag eff h
    cases hdur : env.duration p with
    | none => simp [trimGo, hdur] at h
    | some d =>
      simp only [trimGo, hdur] at h
      by_cases habort : d - s - e ≤ 0
      · rw [if_pos habort] at h
        simp only [List.mem_singleton] at h
        exact ⟨p, h⟩
      · rw [if_neg habort] at h
        rw [if_pos trivial] at h
        simp only [List.mem_cons] at h
        rcases h with rfl | h
        · exact ⟨p, rfl⟩
        · exact ih flag eff h

theorem flatMap_entryEffs_dryrun (env : Env) (pfx : String) (s e : Int) (del : Bool)
    (startT : String) (l : List String) :
    l.flatMap (entryEffs env pfx s e true del startT) = l.map Effect.probe := by
  induction l with
  | nil => rfl
  | cons p rest ih => simp [entryEffs_dryrun, ih]

theorem any_entryFail_dryrun (env : Env) (s e : Int) (startT : String) (l : List String) :
    l.any (entryFail env s e true startT) = false := by
  induction l with
  | nil => rfl
  | cons p rest ih => simp [entryFail_dryrun, ih]

/-! ## A concrete collaborator environment used by the witnesses -/

/-- Three probe-able files (`x.ts` 120s, `y.ts` 30s, `z.ts` 100s), every
other path missing; the external trim invocation reports status 1 for
`y.ts` and 0 otherwise. -/
def envW : Env where
  duration := fun p =>
    if p = "x.ts" then some 120
    else if p = "y.ts" then some 30
    else if p = "z.ts" then some 100
    else none
  trimStatus := fun p _ _ => if p = "y.ts" then 1 else 0

/-! ## Claim theorems: the trim orchestrator -/

/-- Claim C1: if some entry's probed duration minus the start and end trim
is nonpositive (all earlier entries being ones the loop gets past), the
whole run returns failure at that entry: the trace stops with that entry's
probe, so no trim is invoked for it and no later entry is probed, trimmed
or deleted. -/
theorem trim_length_violation_aborts_run (env : Env) (pfx : String) (s e : Int)
    (dr del : Bool) (pre post : List String) (entry : String)
    (hpre : ∀ p ∈ pre, okEntry env s e p)
    (d : Int) (hd : env.duration entry = some d) (habort : d - s - e ≤ 0) :
    trim env pfx s e dr del (pre ++ entry :: post) =
      (.returned false,
        pre.flatMap (entryEffs env pfx s e dr del (format_secs s)) ++ [.probe entry]) ∧
    ∀ eff ∈ (trim env pfx s e dr del (pre ++ entry :: post)).2,
      eff.path ∈ pre ∨ eff = .probe entry := by
  have h1 := trimGo_append env pfx s e dr del (format_secs s) pre (entry :: post) false hpre
  have h2 : trimGo env pfx s e dr del (format_secs s) (entry :: post)
      (false || pre.any (entryFail env s e dr (format_secs s))) =
      (.returned false, [.probe entry]) := by
    simp only [trimGo, hd]
    rw [if_pos habort]
  have hmain : trim env pfx s e dr del (pre ++ entry :: post) =
      (.returned false,
        pre.flatMap (entryEffs env pfx s e dr del (format_secs s)) ++ [.probe entry]) := by
    unfold trim
    rw [h1, h2]
  refine ⟨hmain, fun eff heff => ?_⟩
  rw [hmain] at heff
  rcases List.mem_append.mp heff with h | h
  · obtain ⟨p, hp, hpe⟩ := List.mem_flatMap.mp h
    exact Or.inl (entryEffs_path env pfx s e dr del (format_secs s) p eff hpe ▸ hp)
  · simp only [List.mem_singleton] at h
    exact Or.inr h

theorem trim_length_violation_aborts_run_witness :
    trim envW "_trimmed" 20 15 false true (["x.ts"] ++ "y.ts" :: ["z.ts"]) =
      (.returned false,
        ["x.ts"].flatMap (entryEffs envW "_trimmed" 20 15 false true (format_secs 20)) ++
          [.probe "y.ts"]) :=
  (trim_length_violation_aborts_run envW "_trimmed" 20 15 false true ["x.ts"] ["z.ts"] "y.ts"
    (by
      intro p hp
      simp only [List.mem_singleton] at hp
      subst hp
      exact ⟨120, by decide, by decide⟩)
    30 (by decide) (by decide)).1

/-- Claim C2: on a worklist of entries the loop gets past (no trim-length
abort, no vanished file), the run processes every entry and returns true
exactly when no per-file failure occurred; a per-file failure is a real
(non-dry-run) invocation reporting non-zero status. -/
theorem trim_returns_true_iff_no_failure (env : Env) (pfx : String) (s e : Int)
    (dr del : Bool) (files : List String) (h : ∀ p ∈ files, okEntry env s e p) :
    trim env pfx s e dr del files =
      (.returned (files.all fun p => !entryFail env s e dr (format_secs s) p),
       files.flatMap (entryEffs env pfx s e dr del (format_secs s))) ∧
    ((trim env pfx s e dr del files).1 = .returned true ↔
      ∀ p ∈ files, entryFail env s e dr (format_secs s) p = false) := by
  have hmain := trim_run_eq env pfx s e dr del files h
  refine ⟨hmain, ?_⟩
  rw [hmain]
  simp [List.all_eq_true]

theorem trim_returns_true_iff_no_failure_witness :
    trim envW "_trimmed" 5 5 false true ["x.ts", "y.ts", "z.ts"] =
      (.returned (["x.ts", "y.ts", "z.ts"].all fun p =>
          !entryFail envW 5 5 false (format_secs 5) p),
       ["x.ts", "y.ts", "z.ts"].flatMap
         (entryEffs envW "_trimmed" 5 5 false true (format_secs 5))) :=
  (trim_returns_true_iff_no_failure envW "_trimmed" 5 5 false true ["x.ts", "y.ts", "z.ts"]
    (by
      intro p hp
      simp only [List.mem_cons, List.not_mem_nil, or_false] at hp
      rcases hp with rfl | rfl | rfl
      · exact ⟨120, by decide, by decide⟩
      · exact ⟨30, by decide, by decide⟩
      · exact ⟨100, by decide, by decide⟩)).1

/-- Claim C7: a dry run issues no trim invocation and deletes no file for
any entry — every emitted effect is a duration probe — and when every
entry is one the loop gets past, the run ends with overall success, no
entry having been marked a failure. -/
theorem dryrun_has_no_side_effects (env : Env) (pfx : String) (s e : Int) (del : Bool)
    (files : List String) :
    (∀ eff ∈ (trim env pfx s e true del files).2, ∃ p, eff = .probe p) ∧
    ((∀ p ∈ files, okEntry env s e p) →
      trim env pfx s e true del files = (.returned true, files.map .probe)) := by
  constructor
  · intro eff heff
    exact trimGo_dryrun_probes env pfx s e del (format_secs s) files false eff heff
  · intro h
    rw [trim_run_eq env pfx s e true del files h]
    have h1 : (files.all fun p => !entryFail env s e true (format_secs s) p) = true := by
      simp [List.all_eq_true, entryFail_dryrun]
    rw [h1, flatMap_entryEffs_dryrun]

theorem dryrun_has_no_side_effects_witness :
    trim envW "_trimmed" 5 5 true true ["x.ts", "y.ts", "z.ts"] =
      (.returned true, ["x.ts", "y.ts", "z.ts"].map .probe) :=
  (dryrun_has_no_side_effects envW "_trimmed" 5 5 true ["x.ts", "y.ts", "z.ts"]).2
    (by
      intro p hp
      simp only [List.mem_cons, List.not_mem_nil, or_false] at hp
      rcases hp with rfl | rfl | rfl
      · exact ⟨120, by decide, by decide⟩
      · exact ⟨30, by decide, by decide⟩
      · exact ⟨100, by decide, by decide⟩)

/-- Claim C8: with `delete_original` and a real run, an entry the loop gets
past contributes exactly a probe, then the trim invocation, then — if and
only if that invocation reported status 0 — the deletion of the original;
the remaining entries are processed afterwards. -/
theorem delete_original_iff_trim_succeeded (env : Env) (pfx : String) (s e : Int)
    (pre post : List String) (entry : String)
    (hpre : ∀ p ∈ pre, okEntry env s e p)
    (d : Int) (hd : env.duration entry = some d) (hpos : 0 < d - s - e) :
    trim env pfx s e false true (pre ++ entry :: post) =
      ((trimGo env pfx s e false true (format_secs s) post
          (pre.any (entryFail env s e false (format_secs s)) ||
            entryFail env s e false (format_secs s) entry)).1,
       pre.flatMap (entryEffs env pfx s e false true (format_secs s)) ++
         (entryEffs env pfx s e false true (format_secs s) entry ++
           (trimGo env pfx s e false true (format_secs s) post
             (pre.any (entryFail env s e false (format_secs s)) ||
               entryFail env s e false (format_secs s) entry)).2)) ∧
    entryEffs env pfx s e false true (format_secs s) entry =
      [.probe entry,
       .trim entry (format_secs s) (entryEndTime env s e entry) (out_path pfx entry)] ++
        (if env.trimStatus entry (format_secs s) (entryEndTime env s e entry) = 0
         then [.remove entry] else []) ∧
    (Effect.remove entry ∈ entryEffs env pfx s e false true (format_secs s) entry ↔
      env.trimStatus entry (format_secs s) (entryEndTime env s e entry) = 0) := by
  have hsecond : entryEffs env pfx s e false true (format_secs s) entry =
      [.probe entry,
       .trim entry (format_secs s) (entryEndTime env s e entry) (out_path pfx entry)] ++
        (if env.trimStatus entry (format_secs s) (entryEndTime env s e entry) = 0
         then [.remove entry] else []) := by
    unfold entryEffs
    rw [if_neg Bool.false_ne_true]
    by_cases hst : env.trimStatus entry (format_secs s) (entryEndTime env s e entry) = 0
    · rw [if_neg (by omega), if_pos rfl, if_pos hst]
      rfl
    · rw [if_pos hst, if_neg hst]
      rfl
  refine ⟨?_, hsecond, ?_⟩
  · have h1 := trimGo_append env pfx s e false true (format_secs s) pre (entry :: post)
      false hpre
    have h2 := trimGo_cons_ok env pfx s e false true (format_secs s) entry post
      (false || pre.any (entryFail env s e false (format_secs s))) d hd hpos
    unfold trim
    rw [h1, h2]
    simp [Bool.false_or]
  · rw [hsecond]
    by_cases hst : env.trimStatus entry (format_secs s) (entryEndTime env s e entry) = 0
    · simp [hst]
    · simp [hst]

theorem delete_original_iff_trim_succeeded_witness :
    entryEffs envW "_trimmed" 5 5 false true (format_secs 5) "y.ts" =
      [.probe "y.ts",
       .trim "y.ts" (format_secs 5) (entryEndTime envW 5 5 "y.ts") (out_path "_trimmed" "y.ts")] ++
        (if envW.trimStatus "y.ts" (format_secs 5) (entryEndTime envW 5 5 "y.ts") = 0
         then [.remove "y.ts"] else []) ∧
    (Effect.remove "y.ts" ∈ entryEffs envW "_trimmed" 5 5 false true (format_secs 5) "y.ts" ↔
      envW.trimStatus "y.ts" (format_secs 5) (entryEndTime envW 5 5 "y.ts") = 0) :=
  (delete_original_iff_trim_succeeded envW "_trimmed" 5 5 ["x.ts"] ["z.ts"] "y.ts"
    (by
      intro p hp
      simp only [List.mem_singleton] at hp
      subst hp
      exact ⟨120, by decide, by decide⟩)
    30 (by decide) (by decide)).2

/-- Claim C10: even on a dry run every entry is probed before the dry-run
skip applies: after a prefix of entries the loop gets past (each leaving
only its probe in the trace), a vanished entry raises the not-found error,
and an entry whose duration minus start minus end is nonpositive still
aborts the whole run with overall failure. -/
theorem dryrun_still_probes_and_aborts (env : Env) (pfx : String) (s e : Int) (del : Bool)
    (pre post : List String) (entry : String)
    (hpre : ∀ p ∈ pre, okEntry env s e p) :
    (env.duration entry = none →
      trim env pfx s e true del (pre ++ entry :: post) =
        (.raisedNotFound, pre.map .probe)) ∧
    (∀ d, env.duration entry = some d → d - s - e ≤ 0 →
      trim env pfx s e true del (pre ++ entry :: post) =
        (.returned false, pre.map .probe ++ [.probe entry])) := by
  have h1 := trimGo_append env pfx s e true del (format_secs s) pre (entry :: post) false hpre
  rw [any_entryFail_dryrun, Bool.or_false, flatMap_entryEffs_dryrun] at h1
  constructor
  · intro hnone
    have h2 : trimGo env pfx s e true del (format_secs s) (entry :: post) false =
        (.raisedNotFound, []) := by
      simp [trimGo, hnone]
    unfold trim
    rw [h1, h2]
    simp
  · intro d hd habort
    have h2 : trimGo env pfx s e true del (format_secs s) (entry :: post) false =
        (.returned false, [.probe entry]) := by
      simp only [trimGo, hd]
      rw [if_pos habort]
    unfold trim
    rw [h1, h2]

theorem dryrun_still_probes_and_aborts_witness :
    trim envW "_trimmed" 5 5 true true (["x.ts"] ++ "gone.ts" :: ["z.ts"]) =
      (.raisedNotFound, ["x.ts"].map .probe) ∧
    trim envW "_trimmed" 20 15 true true (["x.ts"] ++ "y.ts" :: ["z.ts"]) =
      (.returned false, ["x.ts"].map .probe ++ [.probe "y.ts"]) :=
  ⟨(dryrun_still_probes_and_aborts envW "_trimmed" 5 5 true ["x.ts"] ["z.ts"] "gone.ts"
      (by
        intro p hp
        simp only [List.mem_singleton] at hp
        subst hp
        exact ⟨120, by decide, by decide⟩)).1 (by decide),
   (dryrun_still_probes_and_aborts envW "_trimmed" 20 15 true ["x.ts"] ["z.ts"] "y.ts"
      (by
        intro p hp
        simp only [List.mem_singleton] at hp
        subst hp
        exact ⟨120, by decide, by decide⟩)).2 30 (by decide) (by decide)⟩

end PyFFTrim

